import Mathlib

/-!
Verification of the XTTS long-form narration pipeline
(`smart_chunk_text`, `smart_chunk_text_token_limit`, `generate_long_audio`,
`combine_audio_files`, and the driver) against its design document.

Texts are modelled as `List Char`; the external synthesis model is modelled
by a success oracle on unit indices, the audio codec by decoded durations
in milliseconds (`Option Nat`, `none` meaning a decode failure).
-/

set_option autoImplicit false

namespace XTTS

/-- Whitespace characters matched by the regex class `\s` and by
`str.strip()` (restricted to the ASCII range used by the scripts). -/
def isSpace (c : Char) : Bool :=
  c = ' ' || c = '\t' || c = '\n' || c = '\r' || c = '\x0b' || c = '\x0c'

/-- Sentence-terminal punctuation from the split pattern `(?<=[.!?])\s+`. -/
def isTerm (c : Char) : Bool :=
  c = '.' || c = '!' || c = '?'

/-- Clause-delimiting punctuation from the split pattern `(,|;|:)`. -/
def isClauseDelim (c : Char) : Bool :=
  c = ',' || c = ';' || c = ':'

/-- Whether a character list starts with a whitespace character. -/
def headIsSpace : List Char → Bool
  | [] => false
  | c :: _ => isSpace c

/-- Worker for the sentence split `re.split(r'(?<=[.!?])\s+', text)`:
`acc` holds the current sentence reversed, and the flag records that we are
inside the maximal whitespace run that follows a terminal character. -/
def sentAux : List Char → List Char → Bool → List (List Char)
  | [], acc, _ => [acc.reverse]
  | c :: rest, acc, skipping =>
    if skipping && isSpace c then
      sentAux rest acc true
    else if isTerm c && headIsSpace rest then
      (c :: acc).reverse :: sentAux rest [] true
    else
      sentAux rest (c :: acc) false

/-- `re.split(r'(?<=[.!?])\s+', text)`: split after terminal punctuation
followed by whitespace, the whitespace run being consumed. -/
def splitSentences (text : List Char) : List (List Char) :=
  sentAux text [] false

/-- Worker for the clause split `re.split(r'(,|;|:)', sentence)`; the
capture group keeps each delimiter as its own list element. -/
def clauseAux : List Char → List Char → List (List Char)
  | [], acc => [acc.reverse]
  | c :: rest, acc =>
    if isClauseDelim c then
      acc.reverse :: [c] :: clauseAux rest []
    else
      clauseAux rest (c :: acc)

/-- `re.split(r'(,|;|:)', sentence)` with delimiters kept. -/
def splitClauses (s : List Char) : List (List Char) :=
  clauseAux s []

/-- Python `str.strip()`: remove leading and trailing whitespace. -/
def pyStrip (l : List Char) : List Char :=
  ((l.dropWhile isSpace).reverse.dropWhile isSpace).reverse

/-- Inner clause loop of `smart_chunk_text` (`mac_cpu.py` lines 40-45,
`main2.py` lines 27-32): greedy packing of the clauses of an oversized
sentence into the accumulator, flushing the stripped accumulator whenever
the character budget would be exceeded. -/
def packClauses (M : Nat) : List (List Char) →
    List (List Char) × List Char → List (List Char) × List Char
  | [], st => st
  | cl :: rest, (chunks, cc) =>
    if cc.length + cl.length + 1 ≤ M then
      packClauses M rest (chunks, cc ++ cl)
    else
      packClauses M rest (chunks ++ [pyStrip cc], cl)

/-- Sentence loop of `smart_chunk_text` (`mac_cpu.py` lines 32-48): skip
whitespace-only sentences, greedily append a fitting sentence plus a space,
fall back to clause packing for an oversized sentence, otherwise flush the
stripped accumulator and start over from this sentence. -/
def packSentences (M : Nat) : List (List Char) →
    List (List Char) × List Char → List (List Char) × List Char
  | [], st => st
  | s :: rest, (chunks, cc) =>
    if pyStrip s = [] then
      packSentences M rest (chunks, cc)
    else if cc.length + s.length + 1 ≤ M then
      packSentences M rest (chunks, cc ++ s ++ [' '])
    else if M < s.length then
      packSentences M rest (packClauses M (splitClauses s) (chunks, cc))
    else
      packSentences M rest (chunks ++ [pyStrip cc], s ++ [' '])

/-- `smart_chunk_text(text, max_chunk_size)` of `mac_cpu.py` lines 27-52
(identical in `main2.py` lines 19-41 up to the default budget): split into
sentences, pack greedily under the character budget `M`, and flush the
trailing non-empty accumulator. -/
def smart_chunk_text (text : List Char) (M : Nat) : List (List Char) :=
  let st := packSentences M (splitSentences text) ([], [])
  if st.2 = [] then st.1 else st.1 ++ [pyStrip st.2]

/-- Sentence loop of `smart_chunk_text_token_limit` (`windows_cuda.py`
lines 39-48): build the stripped candidate `current_chunk + " " + sentence`,
keep it while its token count fits, otherwise flush the non-empty
accumulator and restart from the bare sentence. `tok` models
`len(tokenizer.encode(·))`, an external capability. -/
def packTokenSentences (tok : List Char → Nat) (M : Nat) : List (List Char) →
    List (List Char) × List Char → List (List Char) × List Char
  | [], st => st
  | s :: rest, (chunks, cc) =>
    if tok (pyStrip (cc ++ ' ' :: s)) ≤ M then
      packTokenSentences tok M rest (chunks, pyStrip (cc ++ ' ' :: s))
    else if cc = [] then
      packTokenSentences tok M rest (chunks, s)
    else
      packTokenSentences tok M rest (chunks ++ [pyStrip cc], s)

/-- `smart_chunk_text_token_limit(text, max_tokens)` of `windows_cuda.py`
lines 35-53: split into sentences, pack under the token budget `M`
measured by `tok`, flush the trailing non-empty accumulator. -/
def smart_chunk_text_token_limit (tok : List Char → Nat) (text : List Char)
    (M : Nat) : List (List Char) :=
  let st := packTokenSentences tok M (splitSentences text) ([], [])
  if st.2 = [] then st.1 else st.1 ++ [pyStrip st.2]

/-- Loop body of `generate_long_audio` (`mac_cpu.py` lines 60-74): one
synthesis attempt per chunk in index order; a successful attempt appends
the artifact (identified by its index, from which the path
`chunk_%04d.wav` is derived), a failure is caught and skipped. `ok i`
models whether `tts.tts_to_file` succeeds on chunk `i`. -/
def synthAux (ok : Nat → Bool) : Nat → List (List Char) → List Nat
  | _, [] => []
  | i, _ :: rest =>
    if ok i then i :: synthAux ok (i + 1) rest
    else synthAux ok (i + 1) rest

/-- `generate_long_audio` (`mac_cpu.py` lines 55-79): synthesize every
chunk in order with per-chunk error isolation, returning the artifact
indices of the successful chunks. -/
def generate_long_audio (ok : Nat → Bool) (chunks : List (List Char)) :
    List Nat :=
  synthAux ok 0 chunks

/-- Result of the assembler. `emitted d` records that an output file of
duration `d` milliseconds was exported; `assemblyError` models the
AssemblyError of the design document (the source never produces it). -/
inductive AssembleResult where
  | emitted : Nat → AssembleResult
  | assemblyError : AssembleResult
deriving DecidableEq

/-- Loop body of `combine_audio_files`: a decoded artifact of duration `d`
contributes `d` plus the trailing silence gap; a decode failure is caught
and skipped, contributing nothing. -/
def appendArtifact (gap : Nat) (acc : Nat) (a : Option Nat) : Nat :=
  match a with
  | some d => acc + d + gap
  | none => acc

/-- `combine_audio_files` (`mac_cpu.py` lines 82-96, `windows_cuda.py`
lines 94-106): fold the decoded artifact durations with a fixed silence
gap appended after each decoded artifact, then export unconditionally.
Artifacts are modelled by their decoded durations, `none` for a decode
failure. -/
def combine_audio_files (gap : Nat) (arts : List (Option Nat)) :
    AssembleResult :=
  .emitted (arts.foldl (appendArtifact gap) 0)

/-- Outcome of one pipeline run of the `__main__` driver. -/
inductive RunResult where
  | completed : Nat → RunResult
  | assemblyFailed : RunResult
  | totalSynthesisFailure : RunResult
deriving DecidableEq

/-- The `__main__` driver of `mac_cpu.py` lines 115-126: segment, then
synthesize all chunks; when no artifact was produced report failure
without attempting assembly, otherwise assemble. `dec i` is the decoded
duration of artifact `i` (`none` for a decode failure). -/
def run_pipeline (ok : Nat → Bool) (dec : Nat → Option Nat)
    (text : List Char) (M gap : Nat) : RunResult :=
  let chunks := smart_chunk_text text M
  let artifacts := generate_long_audio ok chunks
  if artifacts = [] then
    .totalSynthesisFailure
  else
    match combine_audio_files gap (artifacts.map dec) with
    | .emitted d => .completed d
    | .assemblyError => .assemblyFailed

/-! ### Basic facts about stripping and whitespace -/

/-- Non-whitespace content of a text, the residue preserved by
whitespace normalization. -/
def nonWS (l : List Char) : List Char :=
  l.filter fun c => !(isSpace c)

/-- Python `str.rstrip()`: remove trailing whitespace. -/
def rstrip (l : List Char) : List Char :=
  (l.reverse.dropWhile isSpace).reverse

theorem pyStrip_eq_rstrip (l : List Char) :
    pyStrip l = rstrip (l.dropWhile isSpace) := rfl

theorem dropWhile_dropWhile (p : Char → Bool) (l : List Char) :
    (l.dropWhile p).dropWhile p = l.dropWhile p := by
  induction l with
  | nil => rfl
  | cons c rest ih =>
    by_cases h : p c
    · simpa [List.dropWhile_cons, h] using ih
    · simp [List.dropWhile_cons, h]

theorem dropWhile_concat_neg (p : Char → Bool) (c : Char) (h : p c = false) :
    ∀ l : List Char, (l ++ [c]).dropWhile p = l.dropWhile p ++ [c] := by
  intro l
  induction l with
  | nil => simp [List.dropWhile_cons, h]
  | cons a rest ih =>
    by_cases ha : p a
    · simp [List.dropWhile_cons, ha, ih]
    · simp [List.dropWhile_cons, ha]

theorem length_dropWhile_le (p : Char → Bool) (l : List Char) :
    (l.dropWhile p).length ≤ l.length :=
  (List.dropWhile_sublist p).length_le

theorem rstrip_nil : rstrip [] = [] := rfl

theorem rstrip_cons_neg {c : Char} (h : isSpace c = false) (l : List Char) :
    rstrip (c :: l) = c :: rstrip l := by
  simp [rstrip, dropWhile_concat_neg isSpace c h]

theorem rstrip_rstrip (l : List Char) : rstrip (rstrip l) = rstrip l := by
  simp [rstrip, dropWhile_dropWhile]

theorem rstrip_length_le (l : List Char) : (rstrip l).length ≤ l.length := by
  simpa [rstrip] using length_dropWhile_le isSpace l.reverse

theorem rstrip_append_space (l : List Char) : rstrip (l ++ [' ']) = rstrip l := by
  simp [rstrip, List.dropWhile_cons, isSpace]

theorem pyStrip_length_le (l : List Char) : (pyStrip l).length ≤ l.length :=
  le_trans (rstrip_length_le (l.dropWhile isSpace)) (length_dropWhile_le isSpace l)

theorem pyStrip_nil : pyStrip [] = [] := rfl

theorem pyStrip_append_space (l : List Char) : pyStrip (l ++ [' ']) = pyStrip l := by
  by_cases h : l.dropWhile isSpace = []
  · have h2 : (l ++ [' ']).dropWhile isSpace = [] := by
      rw [List.dropWhile_append, h]
      simp [List.dropWhile_cons, isSpace]
    rw [pyStrip_eq_rstrip, pyStrip_eq_rstrip, h, h2]
  · have h2 : (l ++ [' ']).dropWhile isSpace = l.dropWhile isSpace ++ [' '] := by
      rw [List.dropWhile_append]
      simp [h]
    rw [pyStrip_eq_rstrip, pyStrip_eq_rstrip, h2, rstrip_append_space]

theorem pyStrip_cons_space {c : Char} (h : isSpace c = true) (l : List Char) :
    pyStrip (c :: l) = pyStrip l := by
  simp [pyStrip_eq_rstrip, List.dropWhile_cons, h]

theorem dropWhile_head_neg {p : Char → Bool} {c : Char} {l : List Char}
    (h : (c :: l).dropWhile p = c :: l) : p c = false := by
  by_cases hc : p c
  · exfalso
    have hlen : (l.dropWhile p).length ≤ l.length := length_dropWhile_le p l
    rw [List.dropWhile_cons, if_pos hc] at h
    have := congrArg List.length h
    simp at this
    omega
  · simpa using hc

theorem pyStrip_idem (l : List Char) : pyStrip (pyStrip l) = pyStrip l := by
  rw [pyStrip_eq_rstrip l]
  have hfix : (l.dropWhile isSpace).dropWhile isSpace = l.dropWhile isSpace :=
    dropWhile_dropWhile isSpace l
  revert hfix
  generalize l.dropWhile isSpace = m
  intro hfix
  cases m with
  | nil => simp [rstrip_nil, pyStrip_nil]
  | cons c rest =>
    have hc : isSpace c = false := dropWhile_head_neg hfix
    rw [rstrip_cons_neg hc]
    rw [pyStrip_eq_rstrip, List.dropWhile_cons, if_neg (by simp [hc])]
    rw [rstrip_cons_neg hc, rstrip_rstrip]

theorem dropWhile_eq_nil_of_all {p : Char → Bool} {l : List Char}
    (h : ∀ c ∈ l, p c = true) : l.dropWhile p = [] := by
  induction l with
  | nil => rfl
  | cons c rest ih =>
    rw [List.dropWhile_cons, if_pos (h c (by simp))]
    exact ih fun x hx => h x (by simp [hx])

theorem pyStrip_eq_nil_of_all_space {l : List Char}
    (h : ∀ c ∈ l, isSpace c = true) : pyStrip l = [] := by
  rw [pyStrip_eq_rstrip, dropWhile_eq_nil_of_all h, rstrip_nil]

theorem nonWS_append (a b : List Char) : nonWS (a ++ b) = nonWS a ++ nonWS b :=
  List.filter_append a b

theorem nonWS_dropWhile (l : List Char) :
    nonWS (l.dropWhile isSpace) = nonWS l := by
  induction l with
  | nil => rfl
  | cons c rest ih =>
    by_cases h : isSpace c
    · rw [List.dropWhile_cons, if_pos h, ih]
      simp [nonWS, List.filter_cons, h]
    · rw [List.dropWhile_cons, if_neg h]

theorem nonWS_reverse (l : List Char) : nonWS l.reverse = (nonWS l).reverse := by
  simp [nonWS, List.filter_reverse]

theorem nonWS_rstrip (l : List Char) : nonWS (rstrip l) = nonWS l := by
  rw [rstrip, nonWS_reverse, nonWS_dropWhile, nonWS_reverse, List.reverse_reverse]

theorem nonWS_pyStrip (l : List Char) : nonWS (pyStrip l) = nonWS l := by
  rw [pyStrip_eq_rstrip, nonWS_rstrip, nonWS_dropWhile]

/-! ### The two splitters reassemble the input -/

theorem clauseAux_join (l : List Char) :
    ∀ acc : List Char, (clauseAux l acc).flatten = acc.reverse ++ l := by
  induction l with
  | nil => intro acc; simp [clauseAux]
  | cons c rest ih =>
    intro acc
    by_cases h : isClauseDelim c
    · simp [clauseAux, h, ih]
    · simp [clauseAux, h, ih]

/-- The clause split with captured delimiters loses nothing: joining the
pieces gives back the sentence. -/
theorem splitClauses_join (s : List Char) : (splitClauses s).flatten = s := by
  simpa using clauseAux_join s []

theorem isTerm_not_space {c : Char} (h : isTerm c = true) : isSpace c = false := by
  simp [isTerm] at h
  rcases h with (h | h) | h <;> subst h <;> decide

theorem isSpace_not_term {c : Char} (h : isSpace c = true) : isTerm c = false := by
  simp [isSpace] at h
  rcases h with ((((h | h) | h) | h) | h) | h <;> subst h <;> decide

theorem sentAux_join_nonWS (l : List Char) :
    ∀ (acc : List Char) (b : Bool),
      nonWS ((sentAux l acc b).flatten) = nonWS acc.reverse ++ nonWS l := by
  induction l with
  | nil =>
    intro acc b
    simp [sentAux, nonWS]
  | cons c rest ih =>
    intro acc b
    by_cases hskip : b && isSpace c
    · rw [sentAux, if_pos hskip]
      have hc : isSpace c = true := by
        have := hskip
        simp at this
        exact this.2
      rw [ih acc true]
      simp [nonWS, List.filter_cons, hc]
    · rw [sentAux, if_neg (by simpa using hskip)]
      by_cases hterm : isTerm c && headIsSpace rest
      · rw [if_pos hterm]
        have hc : isSpace c = false := by
          have := hterm
          simp at this
          exact isTerm_not_space this.1
        rw [List.flatten_cons, nonWS_append, ih [] true]
        simp [nonWS, List.filter_cons, hc]
      · rw [if_neg hterm, ih (c :: acc) false]
        by_cases hc : isSpace c
        · simp [nonWS, List.filter_cons, hc]
        · simp [nonWS, List.filter_cons, hc]

/-- The sentence split loses only whitespace: the non-whitespace content
of the joined sentences is that of the input text. -/
theorem splitSentences_nonWS (text : List Char) :
    nonWS ((splitSentences text).flatten) = nonWS text := by
  simpa [nonWS] using sentAux_join_nonWS text [] false

theorem sentAux_all_space (l : List Char) (h : ∀ c ∈ l, isSpace c = true) :
    ∀ acc : List Char, sentAux l acc false = [acc.reverse ++ l] := by
  induction l with
  | nil => intro acc; simp [sentAux]
  | cons c rest ih =>
    intro acc
    have hc : isSpace c = true := h c (by simp)
    have hterm : isTerm c = false := isSpace_not_term hc
    rw [sentAux, if_neg (by simp), if_neg (by simp [hterm])]
    rw [ih (fun x hx => h x (by simp [hx])) (c :: acc)]
    simp

/-- A whitespace-only text (the empty text included) is a single
"sentence" under the split pattern. -/
theorem splitSentences_all_space (text : List Char)
    (h : ∀ c ∈ text, isSpace c = true) : splitSentences text = [text] := by
  simpa using sentAux_all_space text h []

/-! ### Size invariants of the character-budget packer -/

/-- The unit `u` is the stripped form of a single clause, of size above the
budget, cut from an oversized sentence of `S` — the documented exception to
the size bound. -/
def ClauseOrigin (S : List (List Char)) (M : Nat) (u : List Char) : Prop :=
  ∃ s ∈ S, M < s.length ∧ ∃ c ∈ splitClauses s, u = pyStrip c ∧ M < c.length

/-- A completed unit either fits the character budget or is an oversized
clause. -/
def GoodChunk (S : List (List Char)) (M : Nat) (u : List Char) : Prop :=
  u.length ≤ M ∨ ClauseOrigin S M u

/-- The accumulator either strips to within the budget or is itself an
oversized clause of an oversized sentence of `S`. -/
def GoodAcc (S : List (List Char)) (M : Nat) (cc : List Char) : Prop :=
  (pyStrip cc).length ≤ M ∨
    ∃ s ∈ S, M < s.length ∧ cc ∈ splitClauses s ∧ M < cc.length

theorem GoodChunk_of_GoodAcc {S : List (List Char)} {M : Nat} {cc : List Char}
    (h : GoodAcc S M cc) : GoodChunk S M (pyStrip cc) := by
  rcases h with h | ⟨s, hs, hslen, hmem, hlen⟩
  · exact Or.inl h
  · exact Or.inr ⟨s, hs, hslen, cc, hmem, rfl, hlen⟩

theorem packClauses_inv {S : List (List Char)} {M : Nat} {s : List Char}
    (hs : s ∈ S) (hslen : M < s.length) :
    ∀ (cs : List (List Char)) (chunks : List (List Char)) (cc : List Char),
      (∀ c ∈ cs, c ∈ splitClauses s) →
      (∀ u ∈ chunks, GoodChunk S M u) → GoodAcc S M cc →
      (∀ u ∈ (packClauses M cs (chunks, cc)).1, GoodChunk S M u) ∧
        GoodAcc S M (packClauses M cs (chunks, cc)).2 := by
  intro cs
  induction cs with
  | nil =>
    intro chunks cc _ hchunks hcc
    exact ⟨hchunks, hcc⟩
  | cons cl rest ih =>
    intro chunks cc hcs hchunks hcc
    by_cases h : cc.length + cl.length + 1 ≤ M
    · rw [packClauses, if_pos h]
      refine ih chunks (cc ++ cl) (fun c hc => hcs c (by simp [hc])) hchunks ?_
      left
      calc (pyStrip (cc ++ cl)).length ≤ (cc ++ cl).length := pyStrip_length_le _
        _ ≤ M := by simp; omega
    · rw [packClauses, if_neg h]
      refine ih _ cl (fun c hc => hcs c (by simp [hc])) ?_ ?_
      · intro u hu
        rcases List.mem_append.mp hu with hu | hu
        · exact hchunks u hu
        · rw [List.mem_singleton.mp hu]
          exact GoodChunk_of_GoodAcc hcc
      · by_cases hcl : cl.length ≤ M
        · exact Or.inl (le_trans (pyStrip_length_le cl) hcl)
        · exact Or.inr ⟨s, hs, hslen, hcs cl (by simp), by omega⟩

theorem packSentences_inv {S : List (List Char)} {M : Nat} :
    ∀ (ss chunks : List (List Char)) (cc : List Char),
      (∀ s ∈ ss, s ∈ S) →
      (∀ u ∈ chunks, GoodChunk S M u) → GoodAcc S M cc →
      (∀ u ∈ (packSentences M ss (chunks, cc)).1, GoodChunk S M u) ∧
        GoodAcc S M (packSentences M ss (chunks, cc)).2 := by
  intro ss
  induction ss with
  | nil =>
    intro chunks cc _ hchunks hcc
    exact ⟨hchunks, hcc⟩
  | cons s rest ih =>
    intro chunks cc hss hchunks hcc
    have hrest : ∀ x ∈ rest, x ∈ S := fun x hx => hss x (by simp [hx])
    by_cases hskip : pyStrip s = []
    · rw [packSentences, if_pos hskip]
      exact ih chunks cc hrest hchunks hcc
    · rw [packSentences, if_neg hskip]
      by_cases hfit : cc.length + s.length + 1 ≤ M
      · rw [if_pos hfit]
        refine ih chunks (cc ++ s ++ [' ']) hrest hchunks ?_
        left
        calc (pyStrip (cc ++ s ++ [' '])).length
            ≤ (cc ++ s ++ [' ']).length := pyStrip_length_le _
          _ ≤ M := by simp; omega
      · rw [if_neg hfit]
        by_cases hbig : M < s.length
        · rw [if_pos hbig]
          have hcl := packClauses_inv (hss s (by simp)) hbig (splitClauses s)
            chunks cc (fun c hc => hc) hchunks hcc
          exact ih _ _ hrest hcl.1 hcl.2
        · rw [if_neg hbig]
          refine ih _ (s ++ [' ']) hrest ?_ ?_
          · intro u hu
            rcases List.mem_append.mp hu with hu | hu
            · exact hchunks u hu
            · rw [List.mem_singleton.mp hu]
              exact GoodChunk_of_GoodAcc hcc
          · left
            rw [pyStrip_append_space]
            exact le_trans (pyStrip_length_le s) (by omega)

/-- Every unit of the character-budget segmenter fits the budget or is an
oversized clause of an oversized sentence. -/
theorem charChunks_good (text : List Char) (M : Nat) :
    ∀ u ∈ smart_chunk_text text M, GoodChunk (splitSentences text) M u := by
  intro u hu
  have hinv := @packSentences_inv (splitSentences text) M
    (splitSentences text) [] [] (fun s hs => hs) (by simp) (Or.inl (by simp [pyStrip_nil]))
  simp only [smart_chunk_text] at hu
  by_cases hcc : (packSentences M (splitSentences text) ([], [])).2 = []
  · rw [if_pos hcc] at hu
    exact hinv.1 u hu
  · rw [if_neg hcc] at hu
    rcases List.mem_append.mp hu with hu | hu
    · exact hinv.1 u hu
    · rw [List.mem_singleton.mp hu]
      exact GoodChunk_of_GoodAcc hinv.2

/-! ### Size invariants of the token-budget packer -/

/-- A completed unit of the token-budget segmenter either fits the token
budget or is a whole stripped sentence (this packer never splits below
sentence granularity). -/
def TokGoodChunk (tok : List Char → Nat) (M : Nat) (S : List (List Char))
    (u : List Char) : Prop :=
  tok u ≤ M ∨ ∃ s ∈ S, u = pyStrip s

/-- The token packer's accumulator: empty, a passed stripped candidate, or
a bare sentence taken over after a flush. -/
def TokGoodAcc (tok : List Char → Nat) (M : Nat) (S : List (List Char))
    (cc : List Char) : Prop :=
  cc = [] ∨ tok (pyStrip cc) ≤ M ∨ ∃ s ∈ S, cc = s

theorem TokGoodChunk_of_TokGoodAcc {tok : List Char → Nat} {M : Nat}
    {S : List (List Char)} {cc : List Char} (hne : cc ≠ [])
    (h : TokGoodAcc tok M S cc) : TokGoodChunk tok M S (pyStrip cc) := by
  rcases h with rfl | h | ⟨s, hs, hcs⟩
  · exact absurd rfl hne
  · exact Or.inl h
  · exact Or.inr ⟨s, hs, by rw [hcs]⟩

theorem packTokenSentences_inv {tok : List Char → Nat} {M : Nat}
    {S : List (List Char)} :
    ∀ (ss chunks : List (List Char)) (cc : List Char),
      (∀ s ∈ ss, s ∈ S) →
      (∀ u ∈ chunks, TokGoodChunk tok M S u) → TokGoodAcc tok M S cc →
      (∀ u ∈ (packTokenSentences tok M ss (chunks, cc)).1, TokGoodChunk tok M S u) ∧
        TokGoodAcc tok M S (packTokenSentences tok M ss (chunks, cc)).2 := by
  intro ss
  induction ss with
  | nil =>
    intro chunks cc _ hchunks hcc
    exact ⟨hchunks, hcc⟩
  | cons s rest ih =>
    intro chunks cc hss hchunks hcc
    have hrest : ∀ x ∈ rest, x ∈ S := fun x hx => hss x (by simp [hx])
    by_cases hfit : tok (pyStrip (cc ++ ' ' :: s)) ≤ M
    · rw [packTokenSentences, if_pos hfit]
      refine ih chunks _ hrest hchunks (Or.inr (Or.inl ?_))
      rw [pyStrip_idem]
      exact hfit
    · rw [packTokenSentences, if_neg hfit]
      by_cases hempty : cc = []
      · rw [if_pos hempty]
        exact ih chunks s hrest hchunks
          (Or.inr (Or.inr ⟨s, hss s (List.mem_cons_self s rest), rfl⟩))
      · rw [if_neg hempty]
        refine ih _ s hrest ?_
          (Or.inr (Or.inr ⟨s, hss s (List.mem_cons_self s rest), rfl⟩))
        intro u hu
        rcases List.mem_append.mp hu with hu | hu
        · exact hchunks u hu
        · rw [List.mem_singleton.mp hu]
          exact TokGoodChunk_of_TokGoodAcc hempty hcc

/-- Every unit of the token-budget segmenter fits the token budget or is a
whole stripped sentence of the input. -/
theorem tokChunks_good (tok : List Char → Nat) (text : List Char) (M : Nat) :
    ∀ u ∈ smart_chunk_text_token_limit tok text M,
      TokGoodChunk tok M (splitSentences text) u := by
  intro u hu
  have hinv := @packTokenSentences_inv tok M
    (splitSentences text) (splitSentences text) [] []
    (fun s hs => hs) (by simp) (Or.inl rfl)
  simp only [smart_chunk_text_token_limit] at hu
  by_cases hcc : (packTokenSentences tok M (splitSentences text) ([], [])).2 = []
  · rw [if_pos hcc] at hu
    exact hinv.1 u hu
  · rw [if_neg hcc] at hu
    rcases List.mem_append.mp hu with hu | hu
    · exact hinv.1 u hu
    · rw [List.mem_singleton.mp hu]
      exact TokGoodChunk_of_TokGoodAcc hcc hinv.2

/-! ### Every emitted unit is already stripped -/

theorem packClauses_stripped {M : Nat} :
    ∀ (cs chunks : List (List Char)) (cc : List Char),
      (∀ u ∈ chunks, pyStrip u = u) →
      ∀ u ∈ (packClauses M cs (chunks, cc)).1, pyStrip u = u := by
  intro cs
  induction cs with
  | nil =>
    intro chunks cc hchunks
    exact hchunks
  | cons cl rest ih =>
    intro chunks cc hchunks
    by_cases h : cc.length + cl.length + 1 ≤ M
    · rw [packClauses, if_pos h]
      exact ih chunks (cc ++ cl) hchunks
    · rw [packClauses, if_neg h]
      refine ih _ cl ?_
      intro u hu
      rcases List.mem_append.mp hu with hu | hu
      · exact hchunks u hu
      · rw [List.mem_singleton.mp hu]
        exact pyStrip_idem cc

theorem packSentences_stripped {M : Nat} :
    ∀ (ss chunks : List (List Char)) (cc : List Char),
      (∀ u ∈ chunks, pyStrip u = u) →
      ∀ u ∈ (packSentences M ss (chunks, cc)).1, pyStrip u = u := by
  intro ss
  induction ss with
  | nil =>
    intro chunks cc hchunks
    exact hchunks
  | cons s rest ih =>
    intro chunks cc hchunks
    by_cases hskip : pyStrip s = []
    · rw [packSentences, if_pos hskip]
      exact ih chunks cc hchunks
    · rw [packSentences, if_neg hskip]
      by_cases hfit : cc.length + s.length + 1 ≤ M
      · rw [if_pos hfit]
        exact ih chunks _ hchunks
      · rw [if_neg hfit]
        by_cases hbig : M < s.length
        · rw [if_pos hbig]
          exact ih _ _ (packClauses_stripped (splitClauses s) chunks cc hchunks)
        · rw [if_neg hbig]
          refine ih _ _ ?_
          intro u hu
          rcases List.mem_append.mp hu with hu | hu
          · exact hchunks u hu
          · rw [List.mem_singleton.mp hu]
            exact pyStrip_idem cc

/-- Every unit of the character-budget segmenter carries no leading or
trailing whitespace. -/
theorem charChunks_stripped (text : List Char) (M : Nat) :
    ∀ u ∈ smart_chunk_text text M, pyStrip u = u := by
  intro u hu
  simp only [smart_chunk_text] at hu
  by_cases hcc : (packSentences M (splitSentences text) ([], [])).2 = []
  · rw [if_pos hcc] at hu
    exact packSentences_stripped (splitSentences text) [] [] (by simp) u hu
  · rw [if_neg hcc] at hu
    rcases List.mem_append.mp hu with hu | hu
    · exact packSentences_stripped (splitSentences text) [] [] (by simp) u hu
    · rw [List.mem_singleton.mp hu]
      exact pyStrip_idem _

theorem packTokenSentences_stripped {tok : List Char → Nat} {M : Nat} :
    ∀ (ss chunks : List (List Char)) (cc : List Char),
      (∀ u ∈ chunks, pyStrip u = u) →
      ∀ u ∈ (packTokenSentences tok M ss (chunks, cc)).1, pyStrip u = u := by
  intro ss
  induction ss with
  | nil =>
    intro chunks cc hchunks
    exact hchunks
  | cons s rest ih =>
    intro chunks cc hchunks
    by_cases hfit : tok (pyStrip (cc ++ ' ' :: s)) ≤ M
    · rw [packTokenSentences, if_pos hfit]
      exact ih chunks _ hchunks
    · rw [packTokenSentences, if_neg hfit]
      by_cases hempty : cc = []
      · rw [if_pos hempty]
        exact ih chunks s hchunks
      · rw [if_neg hempty]
        refine ih _ s ?_
        intro u hu
        rcases List.mem_append.mp hu with hu | hu
        · exact hchunks u hu
        · rw [List.mem_singleton.mp hu]
          exact pyStrip_idem cc

/-- Every unit of the token-budget segmenter carries no leading or
trailing whitespace. -/
theorem tokChunks_stripped (tok : List Char → Nat) (text : List Char) (M : Nat) :
    ∀ u ∈ smart_chunk_text_token_limit tok text M, pyStrip u = u := by
  intro u hu
  simp only [smart_chunk_text_token_limit] at hu
  by_cases hcc : (packTokenSentences tok M (splitSentences text) ([], [])).2 = []
  · rw [if_pos hcc] at hu
    exact packTokenSentences_stripped (splitSentences text) [] [] (by simp) u hu
  · rw [if_neg hcc] at hu
    rcases List.mem_append.mp hu with hu | hu
    · exact packTokenSentences_stripped (splitSentences text) [] [] (by simp) u hu
    · rw [List.mem_singleton.mp hu]
      exact pyStrip_idem _

/-! ### The character-budget packer preserves non-whitespace content -/

theorem nonWS_space_singleton : nonWS [' '] = [] := by decide

theorem nonWS_eq_nil_of_strip_nil {s : List Char} (h : pyStrip s = []) :
    nonWS s = [] := by
  rw [← nonWS_pyStrip, h]
  rfl

theorem packClauses_nonWS {M : Nat} :
    ∀ (cs chunks : List (List Char)) (cc : List Char),
      nonWS ((packClauses M cs (chunks, cc)).1.flatten ++
          (packClauses M cs (chunks, cc)).2)
        = nonWS (chunks.flatten ++ cc) ++ nonWS cs.flatten := by
  intro cs
  induction cs with
  | nil =>
    intro chunks cc
    simp [packClauses, nonWS]
  | cons cl rest ih =>
    intro chunks cc
    by_cases h : cc.length + cl.length + 1 ≤ M
    · rw [packClauses, if_pos h, ih]
      simp [nonWS_append, List.append_assoc]
    · rw [packClauses, if_neg h, ih]
      simp [nonWS_append, nonWS_pyStrip, List.append_assoc]

theorem packSentences_nonWS {M : Nat} :
    ∀ (ss chunks : List (List Char)) (cc : List Char),
      nonWS ((packSentences M ss (chunks, cc)).1.flatten ++
          (packSentences M ss (chunks, cc)).2)
        = nonWS (chunks.flatten ++ cc) ++ nonWS ss.flatten := by
  intro ss
  induction ss with
  | nil =>
    intro chunks cc
    simp [packSentences, nonWS]
  | cons s rest ih =>
    intro chunks cc
    by_cases hskip : pyStrip s = []
    · rw [packSentences, if_pos hskip, ih]
      simp [nonWS_append, nonWS_eq_nil_of_strip_nil hskip]
    · rw [packSentences, if_neg hskip]
      by_cases hfit : cc.length + s.length + 1 ≤ M
      · rw [if_pos hfit, ih]
        simp [nonWS_append, nonWS_space_singleton, List.append_assoc]
      · rw [if_neg hfit]
        by_cases hbig : M < s.length
        · rw [if_pos hbig, ih, packClauses_nonWS]
          rw [splitClauses_join]
          simp [nonWS_append, List.append_assoc]
        · rw [if_neg hbig, ih]
          simp [nonWS_append, nonWS_pyStrip, nonWS_space_singleton,
            List.append_assoc]

/-- The character-budget segmenter preserves the input's non-whitespace
content, in order: joining the units gives back the text up to whitespace
normalization. -/
theorem charChunks_nonWS (text : List Char) (M : Nat) :
    nonWS (smart_chunk_text text M).flatten = nonWS text := by
  have h := @packSentences_nonWS M (splitSentences text) [] []
  have hnil : nonWS (([] : List (List Char)).flatten ++ ([] : List Char)) = [] := rfl
  rw [hnil, List.nil_append, splitSentences_nonWS] at h
  simp only [smart_chunk_text]
  by_cases hcc : (packSentences M (splitSentences text) ([], [])).2 = []
  · rw [if_pos hcc]
    rw [hcc, List.append_nil] at h
    exact h
  · rw [if_neg hcc]
    rw [List.flatten_append, List.flatten_cons, List.flatten_nil,
      List.append_nil, nonWS_append, nonWS_pyStrip, ← nonWS_append]
    exact h

/-! ### Degenerate inputs -/

theorem pack_all_space_char {M : Nat} {text : List Char}
    (h : ∀ c ∈ text, isSpace c = true) :
    smart_chunk_text text M = [] := by
  have hsent := splitSentences_all_space text h
  have hstrip : pyStrip text = [] := pyStrip_eq_nil_of_all_space h
  simp [smart_chunk_text, hsent, packSentences, hstrip]

theorem pack_all_space_tok {tok : List Char → Nat} {M : Nat} {text : List Char}
    (h : ∀ c ∈ text, isSpace c = true) (htok : tok [] ≤ M) :
    smart_chunk_text_token_limit tok text M = [] := by
  have hsent := splitSentences_all_space text h
  have hstrip : pyStrip (' ' :: text) = [] := by
    rw [pyStrip_cons_space (by decide)]
    exact pyStrip_eq_nil_of_all_space h
  simp [smart_chunk_text_token_limit, hsent, packTokenSentences, hstrip, htok]

/-! ### Unit synthesizer: error isolation -/

theorem synthAux_eq_filter (ok : Nat → Bool) :
    ∀ (l : List (List Char)) (i : Nat),
      synthAux ok i l = (List.range' i l.length).filter ok := by
  intro l
  induction l with
  | nil =>
    intro i
    simp [synthAux]
  | cons x rest ih =>
    intro i
    rw [synthAux, List.length_cons, List.range'_succ, List.filter_cons, ih (i + 1)]

/-- The artifacts of a run are exactly the successful indices, in
ascending (original) order. -/
theorem generate_eq_filter_range (ok : Nat → Bool) (chunks : List (List Char)) :
    generate_long_audio ok chunks = (List.range chunks.length).filter ok := by
  rw [generate_long_audio, synthAux_eq_filter, List.range_eq_range']

theorem filter_length_partition (p : Nat → Bool) :
    ∀ l : List Nat,
      (l.filter p).length + (l.filter fun a => !(p a)).length = l.length := by
  intro l
  induction l with
  | nil => rfl
  | cons a rest ih =>
    by_cases h : p a
    · simp [List.filter_cons, h]
      omega
    · simp [List.filter_cons, h]
      omega

/-! ### Assembler arithmetic -/

theorem foldl_appendArtifact (gap : Nat) :
    ∀ (l : List (Option Nat)) (a : Nat),
      l.foldl (appendArtifact gap) a
        = a + (l.filterMap id).sum + (l.filterMap id).length * gap := by
  intro l
  induction l with
  | nil =>
    intro a
    simp
  | cons x rest ih =>
    intro a
    cases x with
    | none => simp [appendArtifact, ih]
    | some d =>
      rw [List.foldl_cons, ih]
      simp only [appendArtifact, List.filterMap_cons_some, id]
      simp [List.sum_cons]
      ring

/-! ### Claims -/

/-- Claim C1, as stated, fails for the token-count strategy: with the
length measure as token counter and budget 2, the input "aa,bb" yields the
single unit "aa,bb" of size 5 > 2, yet no clause of any sentence of the
input exceeds the budget — the oversized unit did not originate from an
oversized indivisible clause. -/
theorem C1_counterexample :
    smart_chunk_text_token_limit List.length "aa,bb".toList 2 = ["aa,bb".toList]
    ∧ 2 < ("aa,bb".toList).length
    ∧ ∀ s ∈ splitSentences "aa,bb".toList,
        ∀ c ∈ splitClauses s, c.length ≤ 2 := by
  decide

/-- Claim C1 (amended): every unit of the character-budget segmenter has
size at most M except units that are a single oversized clause of an
oversized sentence; every unit of the token-budget segmenter has token
size at most M except units that are a whole stripped sentence (the token
variant never splits below sentence granularity). -/
theorem C1_size_bound (tok : List Char → Nat) (text : List Char) (M : Nat) :
    (∀ u ∈ smart_chunk_text text M,
      u.length ≤ M ∨ ClauseOrigin (splitSentences text) M u)
    ∧ ∀ u ∈ smart_chunk_text_token_limit tok text M,
      tok u ≤ M ∨ ∃ s ∈ splitSentences text, u = pyStrip s :=
  ⟨charChunks_good text M, tokChunks_good tok text M⟩

/-- Claim C1 witness: the single unit of segmenting "Hi. Yo." under
budget 100 satisfies the size bound. -/
theorem C1_size_bound_witness :
    ("Hi. Yo.".toList).length ≤ 100
      ∨ ClauseOrigin (splitSentences "Hi. Yo.".toList) 100 "Hi. Yo.".toList :=
  (C1_size_bound List.length "Hi. Yo.".toList 100).1 "Hi. Yo.".toList (by decide)

/-- Claim C2, as stated, fails: the assembler appends a silence gap after
every decoded artifact, the last included, so two artifacts of durations
1000 and 2000 with gap 500 produce a track of duration 4000, not the
claimed sum plus (count - 1) gaps = 3500; the difference is a full gap,
beyond any rounding tolerance. -/
theorem C2_counterexample :
    combine_audio_files 500 [some 1000, some 2000] = .emitted 4000
    ∧ 1000 + 2000 + (2 - 1) * 500 = 3500
    ∧ (4000 : Nat) ≠ 3500 := by
  decide

/-- Claim C2 (amended): the duration of the assembled track equals the sum
of the successfully decoded artifact durations plus artifact_count times
the gap duration (a trailing gap follows the last artifact). -/
theorem C2_assembly_duration (gap : Nat) (arts : List (Option Nat)) :
    combine_audio_files gap arts
      = .emitted ((arts.filterMap id).sum + (arts.filterMap id).length * gap) := by
  rw [combine_audio_files, foldl_appendArtifact]
  simp

/-- Claim C3, as stated, fails: with zero successfully appended artifacts
(empty sequence, or every decode failing) the assembler still exports an
output file — an empty track of duration 0 — and never reports
AssemblyError. -/
theorem C3_counterexample :
    combine_audio_files 500 ([] : List (Option Nat)) = .emitted 0
    ∧ combine_audio_files 500 [none, none] = .emitted 0
    ∧ combine_audio_files 500 ([] : List (Option Nat)) ≠ .assemblyError
    ∧ combine_audio_files 500 [none, none] ≠ .assemblyError := by
  decide

/-- Claim C3 (amended): the assembler never fails with AssemblyError; when
zero artifacts are successfully appended it still emits an output file,
containing the empty track. -/
theorem C3_always_exports (gap : Nat) (arts : List (Option Nat)) :
    combine_audio_files gap arts ≠ .assemblyError
    ∧ ((∀ a ∈ arts, a = none) → combine_audio_files gap arts = .emitted 0) := by
  constructor
  · rw [combine_audio_files]
    intro h
    exact AssembleResult.noConfusion h
  · intro h
    have hnil : arts.filterMap id = [] := by
      rw [List.filterMap_eq_nil_iff]
      intro a ha
      rw [h a ha]
      rfl
    rw [combine_audio_files, foldl_appendArtifact, hnil]
    simp

/-- Claim C3 witness: a single decode failure still yields an exported
empty track, not an AssemblyError. -/
theorem C3_always_exports_witness :
    combine_audio_files 500 [none] ≠ .assemblyError
    ∧ combine_audio_files 500 [none] = .emitted 0 :=
  ⟨(C3_always_exports 500 [none]).1, (C3_always_exports 500 [none]).2 (by decide)⟩

/-- Claim C4: concatenating the unit texts of the character-budget
segmenter in sequence order reproduces the input text exactly modulo
whitespace normalization — no non-whitespace character is added, dropped,
or reordered. -/
theorem C4_order_preservation (text : List Char) (M : Nat) :
    nonWS (smart_chunk_text text M).flatten = nonWS text :=
  charChunks_nonWS text M

/-- Claim C5: with synthesis failing exactly on the indices rejected by
`ok`, the synthesizer returns exactly the successful indices in original
relative order — `N - F` artifacts where `F` counts the failing units —
and, being a total function, the run does not abort. -/
theorem C5_partial_failure_tolerance (ok : Nat → Bool) (chunks : List (List Char)) :
    generate_long_audio ok chunks = (List.range chunks.length).filter ok
    ∧ (generate_long_audio ok chunks).length
        + ((List.range chunks.length).filter fun i => !(ok i)).length
      = chunks.length := by
  refine ⟨generate_eq_filter_range ok chunks, ?_⟩
  rw [generate_eq_filter_range, filter_length_partition, List.length_range]

/-- Claim C6: when synthesis fails on every unit the driver reports total
failure and returns without attempting assembly, so no output file is
created. -/
theorem C6_total_failure (ok : Nat → Bool) (dec : Nat → Option Nat)
    (text : List Char) (M gap : Nat)
    (h : ∀ i < (smart_chunk_text text M).length, ok i = false) :
    run_pipeline ok dec text M gap = .totalSynthesisFailure := by
  have hgen : generate_long_audio ok (smart_chunk_text text M) = [] := by
    rw [generate_eq_filter_range, List.filter_eq_nil_iff]
    intro a ha
    rw [List.mem_range] at ha
    simp [h a ha]
  simp [run_pipeline, hgen]

/-- Claim C6 witness: an always-failing synthesis oracle makes the run
report total synthesis failure. -/
theorem C6_total_failure_witness :
    run_pipeline (fun _ => false) (fun _ => none) "a. b.".toList 2400 500
      = .totalSynthesisFailure :=
  C6_total_failure (fun _ => false) (fun _ => none) "a. b.".toList 2400 500
    (fun _ _ => rfl)

/-- Claim C7, as stated, fails: the token-budget segmenter never splits an
oversized sentence on clause delimiters. With the length measure and
budget 3, the single sentence "cc,dd." (size 6) is emitted whole — comma
intact, every one of its clauses within the budget — instead of being
clause-packed. -/
theorem C7_counterexample :
    smart_chunk_text_token_limit List.length "cc,dd.".toList 3 = ["cc,dd.".toList]
    ∧ 3 < ("cc,dd.".toList).length
    ∧ splitClauses "cc,dd.".toList = ["cc".toList, ",".toList, "dd.".toList]
    ∧ ∀ c ∈ splitClauses "cc,dd.".toList, c.length ≤ 3 := by
  decide

/-- Claim C7 (amended): only the character-budget segmenter has the
oversized-sentence fallback — any of its units exceeding the budget is the
stripped form of a single oversized clause of an oversized sentence; the
token-budget segmenter emits an oversized sentence whole, so any of its
units exceeding the budget is a whole stripped sentence. -/
theorem C7_clause_fallback (tok : List Char → Nat) (text : List Char) (M : Nat) :
    (∀ u ∈ smart_chunk_text text M, M < u.length →
      ∃ s ∈ splitSentences text, M < s.length ∧
        ∃ c ∈ splitClauses s, u = pyStrip c ∧ M < c.length)
    ∧ ∀ u ∈ smart_chunk_text_token_limit tok text M, M < tok u →
      ∃ s ∈ splitSentences text, u = pyStrip s := by
  constructor
  · intro u hu hlen
    rcases charChunks_good text M u hu with h | h
    · omega
    · exact h
  · intro u hu hlen
    rcases tokChunks_good tok text M u hu with h | h
    · omega
    · exact h

/-- Claim C7 witness: under budget 3 the oversized sentence "aaaa,bb"
yields the oversized unit "aaaa", which is indeed an oversized clause of
that sentence. -/
theorem C7_clause_fallback_witness :
    ∃ s ∈ splitSentences "aaaa,bb".toList, 3 < s.length ∧
      ∃ c ∈ splitClauses s, "aaaa".toList = pyStrip c ∧ 3 < c.length :=
  (C7_clause_fallback List.length "aaaa,bb".toList 3).1 "aaaa".toList
    (by decide) (by decide)

/-- Claim C8 is the intended invariant but the code violates it: a
sentence of length exactly equal to the budget arriving at an empty
accumulator triggers a flush of that empty accumulator, so the character
segmenter emits the empty unit "" (here for text "aaa" with budget 3),
contradicting non-emptiness after trimming. -/
theorem C8_empty_unit_eval :
    smart_chunk_text "aaa".toList 3 = [[], "aaa".toList] := by
  decide

/-- Claim C9: segmenting the empty text or a whitespace-only text returns
the empty sequence of units, under the character strategy and — provided
the token measure of the empty candidate fits the budget, as any real
tokenizer's does under the default budget 400 — under the token strategy. -/
theorem C9_degenerate_input (tok : List Char → Nat) (text : List Char) (M : Nat)
    (hspace : ∀ c ∈ text, isSpace c = true) (htok : tok [] ≤ M) :
    smart_chunk_text text M = [] ∧ smart_chunk_text_token_limit tok text M = [] :=
  ⟨pack_all_space_char hspace, pack_all_space_tok hspace htok⟩

/-- Claim C9 witness: the empty text and a whitespace-only text both
segment to the empty sequence under both strategies. -/
theorem C9_degenerate_input_witness :
    (smart_chunk_text [] 2400 = []
      ∧ smart_chunk_text_token_limit List.length [] 2400 = [])
    ∧ smart_chunk_text " \t".toList 400 = []
      ∧ smart_chunk_text_token_limit List.length " \t".toList 400 = [] :=
  ⟨C9_degenerate_input List.length [] 2400 (by decide) (by decide),
    C9_degenerate_input List.length " \t".toList 400 (by decide) (by decide)⟩

/-- Claim C10: every unit emitted by either segmenter is stripped — it
carries no leading or trailing whitespace. -/
theorem C10_units_trimmed (tok : List Char → Nat) (text : List Char) (M : Nat) :
    (∀ u ∈ smart_chunk_text text M, pyStrip u = u)
    ∧ ∀ u ∈ smart_chunk_text_token_limit tok text M, pyStrip u = u :=
  ⟨charChunks_stripped text M, tokChunks_stripped tok text M⟩

/-- Claim C10 witness: the unit "a." of segmenting "a. b." under budget 2
is its own stripped form. -/
theorem C10_units_trimmed_witness :
    pyStrip "a.".toList = "a.".toList :=
  (C10_units_trimmed List.length "a. b.".toList 2).1 "a.".toList (by decide)

end XTTS
